import Mathlib

/-!
# tea-effect: verification of the Platform runtime and message algebra

Shallow embedding of the `tea-effect` repository (The Elm Architecture on the
Effect ecosystem).  The embedding covers:

* the `Cmd` message algebra (`src/Cmd.ts`): a command denotes the finite
  sequence of messages its stream emits; `Stream.mergeAll` is modelled by the
  set of its possible interleavings (`MergeOutcome`);
* the `Sub` message algebra (`src/Sub.ts`), structurally identical;
* the `Task` → `Cmd` bridge (`src/Task.ts`): a `Task<A, E>` denotes
  `Except E A`, a bridged command denotes `Except E (Option Msg)`;
* the Platform runtime (`src/Platform.ts`): an event-based transition system
  over the program state (model cell, unbounded FIFO message queue, shutdown
  flag, forked command fibers, the history of `SubscriptionRef.set` writes);
* the subscription loop (`src/Platform.ts`, `Stream.flatMap` with
  `switch: true`): a scheduler-driven transition system producing a trace of
  activate / cancel / emit / complete events.
-/

namespace TeaEffect

/-! ## Cmd / Sub message algebra

`Cmd<Msg>` (src/Cmd.ts) is `Stream.Stream<Msg, E, R>`.  A finite command run
to completion denotes the list of messages it emits, in emission order.
`Stream.mergeAll(cmds, { concurrency: 'unbounded' })` runs all children
concurrently and forwards each message into the shared output as it becomes
available; per-child order is preserved, cross-child order is arbitrary.  Its
possible outputs are exactly the interleavings captured by `MergeOutcome`. -/

/-- Possible outputs of `Stream.mergeAll` on a list of (denoted) child
streams: at each step some child with a pending message contributes its head
message; the merge completes when every child is exhausted. -/
inductive MergeOutcome {α : Type u} : List (List α) → List α → Prop
  | done (cs : List (List α)) (h : ∀ c ∈ cs, c = []) : MergeOutcome cs []
  | take (pre : List (List α)) (x : α) (c : List α) (post : List (List α))
      (out : List α) (h : MergeOutcome (pre ++ c :: post) out) :
      MergeOutcome (pre ++ (x :: c) :: post) (x :: out)

namespace Cmd

/-- `Cmd.none` (src/Cmd.ts): `Stream.empty`, emits nothing. -/
def none {Msg : Type u} : List Msg := []

/-- `Cmd.of(msg)` (src/Cmd.ts): `Stream.make(msg)`, emits `msg` once. -/
def of {Msg : Type u} (msg : Msg) : List Msg := [msg]

/-- `Cmd.map(f)(cmd)` (src/Cmd.ts): `Stream.map(cmd, f)`. -/
def map {A Msg : Type u} (f : A → Msg) (cmd : List A) : List Msg := cmd.map f

/-- `Cmd.batch(cmds)` (src/Cmd.ts): `[]` returns `none`, a singleton returns
`cmds[0]`, otherwise `Stream.mergeAll(cmds, { concurrency: 'unbounded' })`.
`batchOutcome cmds out` holds when `out` is a possible message sequence of
the batched command. -/
def batchOutcome {Msg : Type u} (cmds : List (List Msg)) (out : List Msg) : Prop :=
  match cmds with
  | [] => out = none
  | [c] => out = c
  | _ => MergeOutcome cmds out

end Cmd

namespace Sub

/-- `Sub.none` (src/Sub.ts): `Stream.empty`. -/
def none {Msg : Type u} : List Msg := []

/-- `Sub.of(msg)` (src/Sub.ts): `Stream.succeed(msg)`. -/
def of {Msg : Type u} (msg : Msg) : List Msg := [msg]

/-- `Sub.batch(subs)` (src/Sub.ts): same shape as `Cmd.batch` — `[]` returns
`none`, a singleton returns `subs[0]`, otherwise `Stream.mergeAll`. -/
def batchOutcome {Msg : Type u} (subs : List (List Msg)) (out : List Msg) : Prop :=
  match subs with
  | [] => out = none
  | [c] => out = c
  | _ => MergeOutcome subs out

end Sub

/-! ### Merge lemmas -/

/-- The multiset of all messages of a list of (denoted) streams. -/
def msum {α : Type u} (cs : List (List α)) : Multiset α :=
  (cs.map (fun c => Multiset.ofList c)).sum

theorem msum_append {α : Type u} (cs ds : List (List α)) :
    msum (cs ++ ds) = msum cs + msum ds := by
  simp [msum]

theorem msum_cons {α : Type u} (c : List α) (cs : List (List α)) :
    msum (c :: cs) = Multiset.ofList c + msum cs := by
  simp [msum]

/-- The multiset of messages of a merge outcome: sum of the children's. -/
theorem MergeOutcome.multiset_eq {α : Type u} {cs : List (List α)} {out : List α}
    (h : MergeOutcome cs out) : Multiset.ofList out = msum cs := by
  induction h with
  | done cs h =>
      have : ∀ c ∈ cs.map (fun c => Multiset.ofList c), c = 0 := by
        intro m hm
        obtain ⟨c, hc, rfl⟩ := List.mem_map.mp hm
        simp [h c hc]
      show (0 : Multiset α) = msum cs
      rw [msum, List.sum_eq_zero this]
  | take pre x c post out h ih =>
      rw [msum_append, msum_cons] at ih ⊢
      rw [show Multiset.ofList (x :: out) = x ::ₘ Multiset.ofList out from rfl, ih]
      simp [← Multiset.cons_coe, Multiset.cons_add, Multiset.add_cons]

/-- Merging an exhausted child on the left changes nothing: the only possible
outcomes of `mergeAll [[], c]` are `c` itself. -/
theorem MergeOutcome.nil_left {α : Type u} {c out : List α}
    (h : MergeOutcome [[], c] out) : out = c := by
  generalize hcs : ([[], c] : List (List α)) = cs at h
  induction h generalizing c with
  | done cs hall =>
      subst hcs
      have := hall c (by simp)
      simp [this]
  | take pre x c' post out h ih =>
      match pre, hcs with
      | [], hcs =>
          simp only [List.nil_append, List.cons.injEq] at hcs
          exact absurd hcs.1.symm (List.cons_ne_nil x c')
      | [p], hcs =>
          simp only [List.cons_append, List.nil_append, List.cons.injEq] at hcs
          obtain ⟨hp, hxc, hpost⟩ := hcs
          subst hp hpost
          have := ih (c := c') (by simp)
          simp [← hxc, this]
      | p₁ :: p₂ :: ps, hcs =>
          simp only [List.cons_append, List.cons.injEq] at hcs
          exact absurd hcs.2.2 (by simp)

/-- Merging an exhausted child on the right changes nothing. -/
theorem MergeOutcome.nil_right {α : Type u} {c out : List α}
    (h : MergeOutcome [c, []] out) : out = c := by
  generalize hcs : ([c, []] : List (List α)) = cs at h
  induction h generalizing c with
  | done cs hall =>
      subst hcs
      have := hall c (by simp)
      simp [this]
  | take pre x c' post out h ih =>
      match pre, hcs with
      | [], hcs =>
          simp only [List.nil_append, List.cons.injEq] at hcs
          obtain ⟨hxc, hpost⟩ := hcs
          have hpost' : post = [[]] := by
            cases post with
            | nil => simp at hpost
            | cons q qs =>
                simp only [List.cons.injEq] at hpost
                cases qs with
                | nil => simp [hpost.1]
                | cons r rs => simp at hpost
          subst hpost'
          have := ih (c := c') (by simp)
          simp [← hxc, this]
      | [p], hcs =>
          simp only [List.cons_append, List.nil_append, List.cons.injEq] at hcs
          exact absurd hcs.2.1.symm (List.cons_ne_nil x c')
      | p₁ :: p₂ :: ps, hcs =>
          simp only [List.cons_append, List.cons.injEq] at hcs
          exact absurd hcs.2.2 (by simp)

/-- Every list is an outcome of merging it with an exhausted sibling. -/
theorem MergeOutcome.self_nil_left {α : Type u} (c : List α) :
    MergeOutcome [[], c] c := by
  induction c with
  | nil => exact MergeOutcome.done _ (by simp)
  | cons x rest ih =>
      exact MergeOutcome.take [[]] x rest [] rest ih

/-- Every list is an outcome of merging it with an exhausted right sibling. -/
theorem MergeOutcome.self_nil_right {α : Type u} (c : List α) :
    MergeOutcome [c, []] c := by
  induction c with
  | nil => exact MergeOutcome.done _ (by simp)
  | cons x rest ih =>
      exact MergeOutcome.take [] x rest [[]] rest ih

/-! ## Task → Cmd bridge (src/Task.ts)

`Task<A, E, R>` is an alias for `Effect.Effect<A, E, R>`; run to completion it
denotes `Except E A` (`.ok a` for success, `.error e` for failure).  The
bridge of src/Task.ts still builds the pre-0.4.0 command shape
`Effect.Effect<Option.Option<Msg>, never, R>`, denoted
`Except Empty (Option Msg)`: the `never` error channel is the uninhabited
`Empty`.  Delivery under the current runtime: `Cmd<Msg>` is now
`Stream.Stream<Msg, E, R>` (src/Cmd.ts) and `processCmd`
(src/Platform.ts lines 108-114) runs `Stream.runForEach(msg ⇒
Queue.offer(msgQueue, msg))`, offering the stream's elements to the queue
*verbatim*.  Under the effect library's Effect/Stream unification an
`Effect` value is a one-element stream of its success value, so the bridged
command's single element — the `Option` wrapper itself — is what reaches
the queue; no code path in the current sources unwraps it
(`Option.match`-based dispatch existed only in the superseded Platform
revision). -/

namespace Task

/-- `Task.succeed(a)` (src/Task.ts): `Effect.succeed(a)`. -/
def succeed {A E : Type} (a : A) : Except E A := .ok a

/-- `Task.fail(e)` (src/Task.ts): `Effect.fail(e)`. -/
def fail {A E : Type} (e : E) : Except E A := .error e

/-- `Effect.either(task)`: turns a fallible task into an infallible task of
its `Either` result (`Left` = error, `Right` = success). -/
def effectEither {A E : Type} (task : Except E A) : Except Empty (Except E A) :=
  .ok task

/-- `Task.attempt(f)(task)` (src/Task.ts):
`pipe(task, Effect.either, Effect.map(either => Option.some(f(either))))`. -/
def attempt {A E Msg : Type} (f : Except E A → Msg) (task : Except E A) :
    Except Empty (Option Msg) :=
  (effectEither task).map (fun result => some (f result))

/-- The `{ onSuccess, onFailure }` handler record of `Task.attemptWith`. -/
structure Handlers (A E Msg : Type) where
  onSuccess : A → Msg
  onFailure : E → Msg

/-- `Task.attemptWith({onSuccess, onFailure})(task)` (src/Task.ts):
`attempt(Either.match({ onLeft: handlers.onFailure, onRight: handlers.onSuccess }))(task)`. -/
def attemptWith {A E Msg : Type} (handlers : Handlers A E Msg)
    (task : Except E A) : Except Empty (Option Msg) :=
  attempt (fun result =>
    match result with
    | .error e => handlers.onFailure e
    | .ok a => handlers.onSuccess a) task

/-- The elements the bridged command emits when the current runtime executes
it: viewed as a stream (Effect/Stream unification), an infallible effect
emits its single success value — here the `Option` value itself — and
`processCmd` offers exactly these elements to the message queue, with no
unwrapping. -/
def bridgedElems {Msg : Type} (cmd : Except Empty (Option Msg)) : List (Option Msg) :=
  match cmd with
  | .ok v => [v]
  | .error e => e.elim

end Task

/-- A concrete message vocabulary for the `"oops"` scenario of the spec:
`{type:'Err', e}` and a success variant. -/
inductive BridgeMsg : Type
  | Err (e : String)
  | Done (n : Nat)
  deriving DecidableEq

/-! ## Claim theorems: message algebra -/

/-- C3: for every pair of commands `c₁, c₂`, every possible output of
`Cmd.batch([c₁, c₂])` (src/Cmd.ts `batch`, the `Stream.mergeAll` branch)
contains, with multiplicity, exactly the messages `c₁` and `c₂` would
individually deliver — no message is lost — and there is no ordering
guarantee across children: both cross-child orders are realizable. -/
theorem claim3_batch_fairness {Msg : Type} :
    (∀ (c₁ c₂ out : List Msg), Cmd.batchOutcome [c₁, c₂] out →
        Multiset.ofList out = Multiset.ofList c₁ + Multiset.ofList c₂) ∧
    (∀ x y : Msg, Cmd.batchOutcome [[x], [y]] [x, y] ∧
        Cmd.batchOutcome [[x], [y]] [y, x]) := by
  constructor
  · intro c₁ c₂ out h
    have hm : MergeOutcome [c₁, c₂] out := h
    have := hm.multiset_eq
    simpa [msum] using this
  · intro x y
    constructor
    · show MergeOutcome [[x], [y]] [x, y]
      exact MergeOutcome.take [] x [] [[y]] [y] (MergeOutcome.self_nil_left [y])
    · show MergeOutcome [[x], [y]] [y, x]
      exact MergeOutcome.take [[x]] y [] [] [x] (MergeOutcome.self_nil_right [x])

/-- C3 witness: a concrete batch of two singleton commands delivers both
messages. -/
theorem claim3_batch_fairness_witness :
    Multiset.ofList [0, 1] = Multiset.ofList [0] + Multiset.ofList [(1 : Nat)] :=
  (claim3_batch_fairness.1) [0] [1] [0, 1]
    (MergeOutcome.take [] 0 [] [[1]] [1] (MergeOutcome.self_nil_left [1]))

/-- C9: `batch([]) ≡ none`, `batch([c]) ≡ c`, and `none` is a two-sided
identity for `batch` — `batch([none, c])` and `batch([c, none])` emit exactly
the messages of `c` — in both the `Cmd` (src/Cmd.ts) and the `Sub`
(src/Sub.ts) algebra. -/
theorem claim9_batch_identities {Msg : Type} :
    ((∀ out : List Msg, Cmd.batchOutcome [] out ↔ out = Cmd.none) ∧
      (∀ c out : List Msg, Cmd.batchOutcome [c] out ↔ out = c) ∧
      (∀ c out : List Msg, Cmd.batchOutcome [Cmd.none, c] out ↔ out = c) ∧
      (∀ c out : List Msg, Cmd.batchOutcome [c, Cmd.none] out ↔ out = c)) ∧
    ((∀ out : List Msg, Sub.batchOutcome [] out ↔ out = Sub.none) ∧
      (∀ c out : List Msg, Sub.batchOutcome [c] out ↔ out = c) ∧
      (∀ c out : List Msg, Sub.batchOutcome [Sub.none, c] out ↔ out = c) ∧
      (∀ c out : List Msg, Sub.batchOutcome [c, Sub.none] out ↔ out = c)) := by
  refine ⟨⟨fun out => Iff.rfl, fun c out => Iff.rfl, ?_, ?_⟩,
    ⟨fun out => Iff.rfl, fun c out => Iff.rfl, ?_, ?_⟩⟩ <;>
    intro c out <;> constructor
  · exact fun h => MergeOutcome.nil_left h
  · rintro rfl; exact MergeOutcome.self_nil_left out
  · exact fun h => MergeOutcome.nil_right h
  · rintro rfl; exact MergeOutcome.self_nil_right out
  · exact fun h => MergeOutcome.nil_left h
  · rintro rfl; exact MergeOutcome.self_nil_left out
  · exact fun h => MergeOutcome.nil_right h
  · rintro rfl; exact MergeOutcome.self_nil_right out

/-- C6, behaviour of the staged code at the failing input: bridging a task
that fails with `"oops"` through `attemptWith` yields the pre-0.4.0 shape
`.ok (Option.some (Err "oops"))` — the command indeed never fails — but the
single element the command's stream emits, and hence the value `processCmd`
offers to the queue and `update` receives, is the `Option.some` wrapper
around `Err "oops"` (`[Err "oops"].map Option.some`), not the message
`Err "oops"` itself that the claim, the spec scenario and the repo's own
attemptWith tests (Sub.test.ts, `Stream.runCollect` expected to yield the
bare messages) require. -/
theorem claim6_wrapped_delivery :
    Task.attemptWith ⟨BridgeMsg.Done, BridgeMsg.Err⟩ (Task.fail "oops")
        = .ok (Option.some (BridgeMsg.Err "oops")) ∧
      Task.bridgedElems (Task.attemptWith ⟨BridgeMsg.Done, BridgeMsg.Err⟩ (Task.fail "oops"))
        = [BridgeMsg.Err "oops"].map Option.some ∧
      Task.bridgedElems (Task.attemptWith ⟨BridgeMsg.Done, BridgeMsg.Err⟩ (Task.succeed 7))
        = [BridgeMsg.Done 7].map Option.some :=
  ⟨rfl, rfl, rfl⟩

/-! ## Platform runtime (src/Platform.ts `program`)

The runtime state owned by one running program, mirroring the allocations of
the constructor: the `SubscriptionRef` model cell, the unbounded FIFO message
queue, the shutdown flag, and the two background fibers.  Forked command
fibers (`processCmd` uses `Effect.forkScoped`) are kept with the index of the
model write performed by the iteration that forked them.  `emissions` is the
history of `SubscriptionRef.set` calls: exactly what `modelRef.changes`
publishes to `model$` subscribers.  `processedMsgs` records the messages the
update loop has consumed, in order. -/

namespace Platform

/-- Denotation of a finite command stream handed to `processCmd`: the
messages it emits in order, then its terminal result — `Option.none` for
normal completion, `some e` for failure with `e` on the error channel. -/
structure CmdDen (Msg E : Type) where
  msgs : List Msg
  err : Option E
  deriving DecidableEq

/-- `Cmd.none` as a command denotation: emits nothing and completes. -/
def noneDen {Msg E : Type} : CmdDen Msg E := ⟨[], Option.none⟩

/-- The state of one running program (src/Platform.ts lines 91-160).
Queue entries carry the index of the model write whose update iteration
forked the emitting command fiber, `0` for externally dispatched messages. -/
structure ProgState (Model Msg E : Type) where
  modelCell : Model
  queue : List (Msg × Nat)
  shutdownFlag : Bool
  updateAlive : Bool
  subAlive : Bool
  fibers : List (Nat × CmdDen Msg E)
  fiberFailures : List E
  emissions : List Model
  processedMsgs : List Msg
  deriving DecidableEq

/-- The construction protocol (src/Platform.ts lines 91-149): allocate the
cell at the initial model, the empty queue, the unset shutdown flag, fork the
initial command (`processCmd(initialCmd)`, before any write), start both
background fibers. -/
def initState {Model Msg E : Type} (m₀ : Model) (cmd₀ : CmdDen Msg E) :
    ProgState Model Msg E :=
  ⟨m₀, [], false, true, true, [(0, cmd₀)], [], [], []⟩

/-- Interleaved micro-events of the running program: an external `dispatch`,
one iteration of `updateLoop`, one step of a forked command fiber (emitting
its next message, failing, or completing), or the `shutdown` effect. -/
inductive PEvent (Msg : Type)
  | dispatch (m : Msg)
  | stepUpdate
  | fiberEmit (i : Nat)
  | fiberFail (i : Nat)
  | fiberDone (i : Nat)
  | shutdownEff

/-- `dispatch` (src/Platform.ts lines 101-104): `Effect.runSync(Queue.offer(msgQueue, msg))`
— a total, synchronous enqueue.  The queue is never shut down, so this never
throws, also after `shutdown`. -/
def dispatchOp {Model Msg E : Type} (m : Msg) (s : ProgState Model Msg E) :
    ProgState Model Msg E :=
  { s with queue := s.queue ++ [(m, 0)] }

/-- The `shutdown` effect (src/Platform.ts lines 155-160): set the shutdown
flag, interrupt `updateFiber`, interrupt `subFiber` (interrupting a dead
fiber is a no-op).  It touches neither the queue nor the model cell. -/
def shutdownRun {Model Msg E : Type} (s : ProgState Model Msg E) :
    ProgState Model Msg E :=
  { s with shutdownFlag := true, updateAlive := false, subAlive := false }

/-- `shutdown : Effect.Effect<void, never, never>`: total and infallible —
the error channel is `never`, so every run is `.ok`. -/
def shutdownEffect {Model Msg E : Type} (s : ProgState Model Msg E) :
    Except Empty (ProgState Model Msg E) :=
  .ok (shutdownRun s)

/-- One iteration of `updateLoop` (src/Platform.ts lines 120-135): check the
shutdown flag (interrupt when set); take the next message from the queue
(block when empty); read the current model from the cell *after* the take;
compute `update(msg, model)`; write the new model to the cell (notifying all
`model$` subscribers); fork the returned command (`processCmd`).  The write
precedes the fork, and the forked fiber records the index of that write. -/
def stepUpdateOp {Model Msg E : Type} (update : Msg → Model → Model × CmdDen Msg E)
    (s : ProgState Model Msg E) : ProgState Model Msg E :=
  match s.shutdownFlag, s.updateAlive, s.queue with
  | true, _, _ => { s with updateAlive := false }
  | false, false, _ => s
  | false, true, [] => s
  | false, true, (m, _) :: rest =>
      let r := update m s.modelCell
      { s with
        queue := rest
        modelCell := r.1
        emissions := s.emissions ++ [r.1]
        processedMsgs := s.processedMsgs ++ [m]
        fibers := s.fibers ++ [(s.emissions.length + 1, r.2)] }

/-- One step of the command fiber at index `i` (src/Platform.ts lines
106-114, `Stream.runForEach(msg => Queue.offer(msgQueue, msg))`): enqueue the
stream's next message, tagged with the write index recorded at fork. -/
def fiberEmitOp {Model Msg E : Type} (i : Nat) (s : ProgState Model Msg E) :
    ProgState Model Msg E :=
  match s.fibers.get? i with
  | some (w, c) =>
      match c.msgs with
      | [] => s
      | m :: ms =>
          { s with
            queue := s.queue ++ [(m, w)]
            fibers := s.fibers.set i (w, ⟨ms, c.err⟩) }
  | Option.none => s

/-- Failure of the command fiber at index `i`: the stream's error `e` becomes
the exit of the forked fiber.  `Effect.forkScoped` detaches the fiber from
`processCmd`'s caller, so the failure is recorded nowhere the program reads:
it reaches neither the queue, nor the model cell, nor `model$`. -/
def fiberFailOp {Model Msg E : Type} (i : Nat) (s : ProgState Model Msg E) :
    ProgState Model Msg E :=
  match s.fibers.get? i with
  | some (_, ⟨[], some e⟩) =>
      { s with fibers := s.fibers.eraseIdx i, fiberFailures := s.fiberFailures ++ [e] }
  | _ => s

/-- Normal completion of the command fiber at index `i`. -/
def fiberDoneOp {Model Msg E : Type} (i : Nat) (s : ProgState Model Msg E) :
    ProgState Model Msg E :=
  match s.fibers.get? i with
  | some (_, ⟨[], Option.none⟩) => { s with fibers := s.fibers.eraseIdx i }
  | _ => s

/-- Interpretation of one micro-event. -/
def runEvent {Model Msg E : Type} (update : Msg → Model → Model × CmdDen Msg E)
    (s : ProgState Model Msg E) : PEvent Msg → ProgState Model Msg E
  | .dispatch m => dispatchOp m s
  | .stepUpdate => stepUpdateOp update s
  | .fiberEmit i => fiberEmitOp i s
  | .fiberFail i => fiberFailOp i s
  | .fiberDone i => fiberDoneOp i s
  | .shutdownEff => shutdownRun s

/-- Interpretation of a finite schedule of micro-events, left to right. -/
def runEvents {Model Msg E : Type} (update : Msg → Model → Model × CmdDen Msg E)
    (evs : List (PEvent Msg)) (s : ProgState Model Msg E) : ProgState Model Msg E :=
  evs.foldl (runEvent update) s

/-- The state reached from a freshly constructed program by a schedule. -/
def reach {Model Msg E : Type} (update : Msg → Model → Model × CmdDen Msg E)
    (m₀ : Model) (cmd₀ : CmdDen Msg E) (evs : List (PEvent Msg)) :
    ProgState Model Msg E :=
  runEvents update evs (initState m₀ cmd₀)

/-- The externally dispatched messages of a schedule, in dispatch order. -/
def dispatchedOf {Msg : Type} (evs : List (PEvent Msg)) : List Msg :=
  evs.filterMap fun e =>
    match e with
    | .dispatch m => some m
    | _ => Option.none

/-- What a `model$` subscriber attaching at state `s` observes over the rest
of the run (src/Platform.ts lines 151-153): `model$` is `modelRef.changes`,
which emits the current value immediately on subscription and then every
subsequent `SubscriptionRef.set` write, in write order.  The
`as Stream.Stream` cast on line 153 is a type assertion erased at runtime. -/
def subscriberView {Model Msg E : Type} (update : Msg → Model → Model × CmdDen Msg E)
    (s : ProgState Model Msg E) (evs : List (PEvent Msg)) : List Model :=
  s.modelCell :: ((runEvents update evs s).emissions.drop s.emissions.length)

/-- The error, if any, with which the `model$` stream of state `s` fails:
`model$` is `SubscriptionRef.changes` (a hub-backed stream of writes), which
has error type `never` — it never fails, whatever the command fibers do.  The
`as Stream.Stream<Model, E, R>` cast adds no runtime behaviour. -/
def modelStreamErr {Model Msg E : Type} (_s : ProgState Model Msg E) : Option E :=
  Option.none

/-- The error, if any, with which `runWith(onModel)(prog)` fails
(src/Platform.ts lines 202-210): it drains `model$` through a pure callback,
so it fails exactly when `model$` fails. -/
def runWithErr {Model Msg E : Type} (s : ProgState Model Msg E) : Option E :=
  modelStreamErr s

end Platform

/-! ## Claim theorems: update loop -/

open Platform

/-- The model the cell will hold once the queue, as it stands, is fully
drained by the update loop: fold the update function over the pending
messages starting from the current cell value. -/
def pendingFold {Model Msg E : Type} (update : Msg → Model → Model × CmdDen Msg E)
    (s : ProgState Model Msg E) : Model :=
  (s.queue.map Prod.fst).foldl (fun mo m => (update m mo).1) s.modelCell

theorem pendingFold_dispatch {Model Msg E : Type}
    (update : Msg → Model → Model × CmdDen Msg E) (m : Msg) (s : ProgState Model Msg E) :
    pendingFold update (dispatchOp m s) = (update m (pendingFold update s)).1 := by
  simp [pendingFold, dispatchOp, List.foldl_append]

theorem pendingFold_step {Model Msg E : Type}
    (update : Msg → Model → Model × CmdDen Msg E) (s : ProgState Model Msg E)
    (hflag : s.shutdownFlag = false) (halive : s.updateAlive = true) :
    pendingFold update (stepUpdateOp update s) = pendingFold update s := by
  unfold stepUpdateOp
  rw [hflag, halive]
  match hq : s.queue with
  | [] => simp [pendingFold, hq]
  | (m, t) :: rest => simp [pendingFold, hq]

theorem flags_dispatch {Model Msg E : Type} (m : Msg) (s : ProgState Model Msg E) :
    (dispatchOp m s).shutdownFlag = s.shutdownFlag ∧
      (dispatchOp m s).updateAlive = s.updateAlive := ⟨rfl, rfl⟩

theorem flags_step {Model Msg E : Type}
    (update : Msg → Model → Model × CmdDen Msg E) (s : ProgState Model Msg E)
    (hflag : s.shutdownFlag = false) (halive : s.updateAlive = true) :
    (stepUpdateOp update s).shutdownFlag = false ∧
      (stepUpdateOp update s).updateAlive = true := by
  unfold stepUpdateOp
  rw [hflag, halive]
  match hq : s.queue with
  | [] => exact ⟨hflag, halive⟩
  | (m, t) :: rest => exact ⟨rfl, rfl⟩

/-- Fold invariant of the update loop: over any schedule of dispatches and
update iterations, the "queue-drained" model is the fold of the update
function over the dispatched messages. -/
theorem runEvents_fold {Model Msg E : Type}
    (update : Msg → Model → Model × CmdDen Msg E) (evs : List (PEvent Msg))
    (hevs : ∀ e ∈ evs, e = PEvent.stepUpdate ∨ ∃ m, e = PEvent.dispatch m)
    (s : ProgState Model Msg E) (hflag : s.shutdownFlag = false)
    (halive : s.updateAlive = true) :
    pendingFold update (runEvents update evs s)
        = (dispatchedOf evs).foldl (fun mo m => (update m mo).1) (pendingFold update s)
      ∧ (runEvents update evs s).shutdownFlag = false
      ∧ (runEvents update evs s).updateAlive = true := by
  induction evs generalizing s with
  | nil => exact ⟨rfl, hflag, halive⟩
  | cons e evs ih =>
      have he := hevs e (List.mem_cons_self e evs)
      have hevs' : ∀ e' ∈ evs, e' = PEvent.stepUpdate ∨ ∃ m, e' = PEvent.dispatch m :=
        fun e' h => hevs e' (List.mem_cons_of_mem e h)
      rcases he with rfl | ⟨m, rfl⟩
      · have hf := flags_step update s hflag halive
        have hrun : runEvents update (PEvent.stepUpdate :: evs) s
            = runEvents update evs (stepUpdateOp update s) := rfl
        have h := ih hevs' (stepUpdateOp update s) hf.1 hf.2
        rw [hrun]
        refine ⟨?_, h.2.1, h.2.2⟩
        rw [h.1, pendingFold_step update s hflag halive]
        rfl
      · have hrun : runEvents update (PEvent.dispatch m :: evs) s
            = runEvents update evs (dispatchOp m s) := rfl
        have h := ih hevs' (dispatchOp m s) hflag halive
        rw [hrun]
        refine ⟨?_, h.2.1, h.2.2⟩
        rw [h.1, pendingFold_dispatch update m s]
        rfl

/-- C1: with `update` pure and every returned command `Cmd.none`, whatever
the interleaving of dispatches `[m₁…mₙ]` with update-loop iterations, once
the loop has drained the queue the model cell holds
`foldl update m₀ [m₁…mₙ]`.  The loop (src/Platform.ts lines 119-135) reads
the cell *after* taking the message, so each iteration starts from the model
written by the immediately preceding iteration. -/
theorem claim1_single_consumer {Model Msg E : Type}
    (update : Msg → Model → Model × CmdDen Msg E)
    (hpure : ∀ m mo, (update m mo).2 = (noneDen : CmdDen Msg E))
    (m₀ : Model) (evs : List (PEvent Msg))
    (hevs : ∀ e ∈ evs, e = PEvent.stepUpdate ∨ ∃ m, e = PEvent.dispatch m)
    (hdrained : (reach update m₀ noneDen evs).queue = []) :
    (reach update m₀ noneDen evs).modelCell
      = (dispatchedOf evs).foldl (fun mo m => (update m mo).1) m₀ := by
  have h := runEvents_fold update evs hevs (initState m₀ noneDen) rfl rfl
  have hfin : pendingFold update (reach update m₀ noneDen evs)
      = (reach update m₀ noneDen evs).modelCell := by
    unfold pendingFold
    rw [hdrained]
    rfl
  have hinit : pendingFold update (initState m₀ (noneDen : CmdDen Msg E)) = m₀ := rfl
  rw [← hfin]
  rw [show reach update m₀ noneDen evs = runEvents update evs (initState m₀ noneDen) from rfl]
  rw [h.1, hinit]

/-- A concrete update function for witnesses: a running sum with no
commands. -/
def exUpd : Nat → Nat → Nat × CmdDen Nat Unit := fun m mo => (mo + m, noneDen)

/-- C1 witness: dispatch 1, process it, dispatch 2, process it; the final
model is the fold over the dispatch order. -/
theorem claim1_single_consumer_witness :
    (reach exUpd 0 noneDen
        [PEvent.dispatch 1, PEvent.stepUpdate, PEvent.dispatch 2, PEvent.stepUpdate]).modelCell
      = (dispatchedOf
          [PEvent.dispatch 1, PEvent.stepUpdate, PEvent.dispatch 2, PEvent.stepUpdate]).foldl
          (fun mo m => (exUpd m mo).1) 0 :=
  claim1_single_consumer exUpd (fun _ _ => rfl) 0 _
    (by
      intro e he
      simp only [List.mem_cons, List.not_mem_nil, or_false] at he
      rcases he with rfl | rfl | rfl | rfl
      · exact Or.inr ⟨1, rfl⟩
      · exact Or.inl rfl
      · exact Or.inr ⟨2, rfl⟩
      · exact Or.inl rfl)
    (by decide)

/-! ## Claim theorems: shutdown and dispatch after shutdown -/

/-- C8: running the `shutdown` effect is infallible (`Effect<void, never, never>`:
every run is `.ok`), and running it twice in sequence leaves the program
state — shutdown flag, both background fibers, queue, and model cell —
exactly as running it once does. -/
theorem claim8_shutdown_idempotent {Model Msg E : Type} :
    (∀ s : ProgState Model Msg E, shutdownEffect s = .ok (shutdownRun s)) ∧
    (∀ s : ProgState Model Msg E, shutdownRun (shutdownRun s) = shutdownRun s) :=
  ⟨fun _ => rfl, fun _ => rfl⟩

/-- A command fiber's step touches only the queue and the fiber list. -/
theorem fiberEmitOp_frame {Model Msg E : Type} (i : Nat) (s : ProgState Model Msg E) :
    (fiberEmitOp i s).shutdownFlag = s.shutdownFlag ∧
      (fiberEmitOp i s).processedMsgs = s.processedMsgs ∧
      (fiberEmitOp i s).emissions = s.emissions ∧
      (fiberEmitOp i s).modelCell = s.modelCell := by
  unfold fiberEmitOp
  cases hg : s.fibers.get? i with
  | none => exact ⟨rfl, rfl, rfl, rfl⟩
  | some wc =>
      obtain ⟨w, cm, ce⟩ := wc
      cases cm with
      | nil => exact ⟨rfl, rfl, rfl, rfl⟩
      | cons m ms => exact ⟨rfl, rfl, rfl, rfl⟩

/-- A command fiber's failure touches only the fiber list and the failure
log. -/
theorem fiberFailOp_frame {Model Msg E : Type} (i : Nat) (s : ProgState Model Msg E) :
    (fiberFailOp i s).shutdownFlag = s.shutdownFlag ∧
      (fiberFailOp i s).processedMsgs = s.processedMsgs ∧
      (fiberFailOp i s).emissions = s.emissions ∧
      (fiberFailOp i s).modelCell = s.modelCell := by
  unfold fiberFailOp
  cases hg : s.fibers.get? i with
  | none => exact ⟨rfl, rfl, rfl, rfl⟩
  | some wc =>
      obtain ⟨w, cm, ce⟩ := wc
      cases cm with
      | nil =>
          cases ce with
          | none => exact ⟨rfl, rfl, rfl, rfl⟩
          | some e => exact ⟨rfl, rfl, rfl, rfl⟩
      | cons m ms => exact ⟨rfl, rfl, rfl, rfl⟩

/-- A command fiber's completion touches only the fiber list. -/
theorem fiberDoneOp_frame {Model Msg E : Type} (i : Nat) (s : ProgState Model Msg E) :
    (fiberDoneOp i s).shutdownFlag = s.shutdownFlag ∧
      (fiberDoneOp i s).processedMsgs = s.processedMsgs ∧
      (fiberDoneOp i s).emissions = s.emissions ∧
      (fiberDoneOp i s).modelCell = s.modelCell := by
  unfold fiberDoneOp
  cases hg : s.fibers.get? i with
  | none => exact ⟨rfl, rfl, rfl, rfl⟩
  | some wc =>
      obtain ⟨w, cm, ce⟩ := wc
      cases cm with
      | nil =>
          cases ce with
          | none => exact ⟨rfl, rfl, rfl, rfl⟩
          | some e => exact ⟨rfl, rfl, rfl, rfl⟩
      | cons m ms => exact ⟨rfl, rfl, rfl, rfl⟩

/-- With the shutdown flag set, an update-loop iteration only marks the
update fiber dead (src/Platform.ts lines 122-125). -/
theorem stepUpdateOp_shutdown {Model Msg E : Type}
    (update : Msg → Model → Model × CmdDen Msg E) (s : ProgState Model Msg E)
    (hflag : s.shutdownFlag = true) :
    stepUpdateOp update s = { s with updateAlive := false } := by
  unfold stepUpdateOp
  rw [hflag]

theorem runEvent_frozen {Model Msg E : Type}
    (update : Msg → Model → Model × CmdDen Msg E) (e : PEvent Msg)
    (s : ProgState Model Msg E) (hflag : s.shutdownFlag = true) :
    (runEvent update s e).shutdownFlag = true ∧
      (runEvent update s e).processedMsgs = s.processedMsgs ∧
      (runEvent update s e).emissions = s.emissions ∧
      (runEvent update s e).modelCell = s.modelCell := by
  cases e with
  | dispatch m => exact ⟨hflag, rfl, rfl, rfl⟩
  | stepUpdate =>
      have h : runEvent update s PEvent.stepUpdate = { s with updateAlive := false } :=
        stepUpdateOp_shutdown update s hflag
      rw [h]
      exact ⟨hflag, rfl, rfl, rfl⟩
  | fiberEmit i =>
      have h := fiberEmitOp_frame i s
      exact ⟨h.1.trans hflag, h.2.1, h.2.2.1, h.2.2.2⟩
  | fiberFail i =>
      have h := fiberFailOp_frame i s
      exact ⟨h.1.trans hflag, h.2.1, h.2.2.1, h.2.2.2⟩
  | fiberDone i =>
      have h := fiberDoneOp_frame i s
      exact ⟨h.1.trans hflag, h.2.1, h.2.2.1, h.2.2.2⟩
  | shutdownEff => exact ⟨rfl, rfl, rfl, rfl⟩

/-- `runEvent_frozen`, extended over any schedule. -/
theorem runEvents_frozen {Model Msg E : Type}
    (update : Msg → Model → Model × CmdDen Msg E) (evs : List (PEvent Msg))
    (s : ProgState Model Msg E) (hflag : s.shutdownFlag = true) :
    (runEvents update evs s).shutdownFlag = true ∧
      (runEvents update evs s).processedMsgs = s.processedMsgs ∧
      (runEvents update evs s).emissions = s.emissions ∧
      (runEvents update evs s).modelCell = s.modelCell := by
  induction evs generalizing s with
  | nil => exact ⟨hflag, rfl, rfl, rfl⟩
  | cons e evs ih =>
      have h1 := runEvent_frozen update e s hflag
      have h2 := ih (runEvent update s e) h1.1
      exact ⟨h2.1, h2.2.1.trans h1.2.1, h2.2.2.1.trans h1.2.2.1, h2.2.2.2.trans h1.2.2.2⟩

/-- C7: once the `shutdown` effect has completed, `dispatch(msg)` is a total
synchronous enqueue — it does not throw, and it only appends to the (still
allocated, never closed) queue — and afterwards no schedule of events causes
any further update invocation, any further model write, or any further
`model$` emission. -/
theorem claim7_dispatch_after_shutdown {Model Msg E : Type}
    (update : Msg → Model → Model × CmdDen Msg E) (m : Msg)
    (s : ProgState Model Msg E) (evs : List (PEvent Msg)) :
    dispatchOp m (shutdownRun s) =
        { shutdownRun s with queue := s.queue ++ [(m, 0)] } ∧
      (runEvents update evs (dispatchOp m (shutdownRun s))).processedMsgs
        = s.processedMsgs ∧
      (runEvents update evs (dispatchOp m (shutdownRun s))).emissions = s.emissions ∧
      (runEvents update evs (dispatchOp m (shutdownRun s))).modelCell = s.modelCell := by
  have h := runEvents_frozen update evs (dispatchOp m (shutdownRun s)) rfl
  exact ⟨rfl, h.2.1, h.2.2.1, h.2.2.2⟩

/-! ## Claim theorems: write-before-fork (C10) -/

/-- The write-order invariant: every live command fiber was forked by an
update iteration whose model write is already in the emission history; every
queued message originating from such a fiber carries that write's index; and
the cell holds the latest write. -/
def Inv10 {Model Msg E : Type} (m₀ : Model) (s : ProgState Model Msg E) : Prop :=
  (∀ p ∈ s.fibers, p.1 ≤ s.emissions.length) ∧
    (∀ q ∈ s.queue, q.2 ≤ s.emissions.length) ∧
    s.modelCell = s.emissions.getLastD m₀

theorem Inv10_runEvent {Model Msg E : Type}
    (update : Msg → Model → Model × CmdDen Msg E) (m₀ : Model) (e : PEvent Msg)
    (s : ProgState Model Msg E) (h : Inv10 m₀ s) : Inv10 m₀ (runEvent update s e) := by
  obtain ⟨hfib, hq, hcell⟩ := h
  cases e with
  | dispatch m =>
      refine ⟨hfib, ?_, hcell⟩
      intro q hq'
      rcases List.mem_append.mp hq' with h' | h'
      · exact hq q h'
      · simp only [List.mem_singleton] at h'
        subst h'
        exact Nat.zero_le _
  | stepUpdate =>
      show Inv10 m₀ (stepUpdateOp update s)
      unfold stepUpdateOp
      match hflag : s.shutdownFlag, halive : s.updateAlive, hqe : s.queue with
      | true, _, _ => exact ⟨hfib, fun q h' => hq q (hqe ▸ h'), hcell⟩
      | false, false, _ => exact ⟨hfib, fun q h' => hq q (hqe ▸ h'), hcell⟩
      | false, true, [] => exact ⟨hfib, fun q h' => hq q (hqe ▸ h'), hcell⟩
      | false, true, (m, t) :: rest =>
          refine ⟨?_, ?_, ?_⟩
          · intro p hp
            simp only [List.length_append, List.length_singleton]
            rcases List.mem_append.mp hp with h' | h'
            · exact Nat.le_succ_of_le (hfib p h')
            · simp only [List.mem_singleton] at h'
              subst h'
              exact Nat.le_refl _
          · intro q hq'
            simp only [List.length_append, List.length_singleton]
            exact Nat.le_succ_of_le (hq q (by rw [hqe]; exact List.mem_cons_of_mem _ hq'))
          · simp [List.getLastD_concat]
  | fiberEmit i =>
      show Inv10 m₀ (fiberEmitOp i s)
      unfold fiberEmitOp
      cases hg : s.fibers.get? i with
      | none => exact ⟨hfib, hq, hcell⟩
      | some wc =>
          obtain ⟨w, cm, ce⟩ := wc
          have hwmem : (w, CmdDen.mk cm ce) ∈ s.fibers := List.get?_mem hg
          have hwle : w ≤ s.emissions.length := hfib _ hwmem
          cases cm with
          | nil => exact ⟨hfib, hq, hcell⟩
          | cons m ms =>
              refine ⟨?_, ?_, hcell⟩
              · intro p hp
                rcases List.mem_or_eq_of_mem_set hp with h' | h'
                · exact hfib p h'
                · subst h'
                  exact hwle
              · intro q hq'
                rcases List.mem_append.mp hq' with h' | h'
                · exact hq q h'
                · simp only [List.mem_singleton] at h'
                  subst h'
                  exact hwle
  | fiberFail i =>
      show Inv10 m₀ (fiberFailOp i s)
      unfold fiberFailOp
      cases hg : s.fibers.get? i with
      | none => exact ⟨hfib, hq, hcell⟩
      | some wc =>
          obtain ⟨w, cm, ce⟩ := wc
          cases cm with
          | nil =>
              cases ce with
              | none => exact ⟨hfib, hq, hcell⟩
              | some err =>
                  exact ⟨fun p hp => hfib p (List.eraseIdx_subset _ _ hp), hq, hcell⟩
          | cons m ms => exact ⟨hfib, hq, hcell⟩
  | fiberDone i =>
      show Inv10 m₀ (fiberDoneOp i s)
      unfold fiberDoneOp
      cases hg : s.fibers.get? i with
      | none => exact ⟨hfib, hq, hcell⟩
      | some wc =>
          obtain ⟨w, cm, ce⟩ := wc
          cases cm with
          | nil =>
              cases ce with
              | none => exact ⟨fun p hp => hfib p (List.eraseIdx_subset _ _ hp), hq, hcell⟩
              | some err => exact ⟨hfib, hq, hcell⟩
          | cons m ms => exact ⟨hfib, hq, hcell⟩
  | shutdownEff => exact ⟨hfib, hq, hcell⟩

/-- C10: in every update iteration the new model is written to the cell
before the returned command is forked (src/Platform.ts lines 127-134), so in
every reachable state each live command fiber's fork index points at a write
already in the emission history, each queued fiber-originated message carries
such an index, and the cell holds the latest write: any message a command
emits is processed against a model state that already includes the write of
the iteration that forked it. -/
theorem claim10_write_before_fork {Model Msg E : Type}
    (update : Msg → Model → Model × CmdDen Msg E) (m₀ : Model)
    (cmd₀ : CmdDen Msg E) (evs : List (PEvent Msg)) :
    (∀ p ∈ (reach update m₀ cmd₀ evs).fibers,
        p.1 ≤ (reach update m₀ cmd₀ evs).emissions.length) ∧
      (∀ q ∈ (reach update m₀ cmd₀ evs).queue,
        q.2 ≤ (reach update m₀ cmd₀ evs).emissions.length) ∧
      (reach update m₀ cmd₀ evs).modelCell
        = (reach update m₀ cmd₀ evs).emissions.getLastD m₀ := by
  have hinit : Inv10 m₀ (initState m₀ cmd₀) := by
    refine ⟨?_, ?_, rfl⟩
    · intro p hp
      simp only [initState, List.mem_singleton] at hp
      subst hp
      exact Nat.le_refl _
    · intro q hq
      simp [initState] at hq
  have main : ∀ (evs : List (PEvent Msg)) (s : ProgState Model Msg E),
      Inv10 m₀ s → Inv10 m₀ (runEvents update evs s) := by
    intro evs
    induction evs with
    | nil => exact fun s h => h
    | cons e evs ih => exact fun s h => ih _ (Inv10_runEvent update m₀ e s h)
  exact main evs (initState m₀ cmd₀) hinit

/-! ## Claim theorems: the model$ stream (C5) -/

/-- The successive models the update loop writes while consuming the given
messages in order, starting from `m₀`: one write per message. -/
def scanModels {Model Msg E : Type} (update : Msg → Model → Model × CmdDen Msg E)
    (m₀ : Model) : List Msg → List Model
  | [] => []
  | m :: ms => (update m m₀).1 :: scanModels update (update m m₀).1 ms

theorem scanModels_concat {Model Msg E : Type}
    (update : Msg → Model → Model × CmdDen Msg E) (m₀ : Model) (l : List Msg) (m : Msg) :
    scanModels update m₀ (l ++ [m])
      = scanModels update m₀ l
          ++ [(update m (l.foldl (fun mo m' => (update m' mo).1) m₀)).1] := by
  induction l generalizing m₀ with
  | nil => rfl
  | cons x xs ih =>
      simp only [List.cons_append, scanModels, List.foldl_cons, List.append_eq]
      rw [ih]

/-- The emission invariant: the `SubscriptionRef.set` history is exactly one
write per processed message — the model returned by that update — and the
cell holds the fold of the processed messages. -/
def Inv5 {Model Msg E : Type} (update : Msg → Model → Model × CmdDen Msg E)
    (m₀ : Model) (s : ProgState Model Msg E) : Prop :=
  s.emissions = scanModels update m₀ s.processedMsgs ∧
    s.modelCell = s.processedMsgs.foldl (fun mo m => (update m mo).1) m₀

theorem Inv5_runEvent {Model Msg E : Type}
    (update : Msg → Model → Model × CmdDen Msg E) (m₀ : Model) (e : PEvent Msg)
    (s : ProgState Model Msg E) (h : Inv5 update m₀ s) :
    Inv5 update m₀ (runEvent update s e) := by
  obtain ⟨hem, hcell⟩ := h
  cases e with
  | dispatch m => exact ⟨hem, hcell⟩
  | stepUpdate =>
      show Inv5 update m₀ (stepUpdateOp update s)
      unfold stepUpdateOp
      match hflag : s.shutdownFlag, halive : s.updateAlive, hqe : s.queue with
      | true, _, _ => exact ⟨hem, hcell⟩
      | false, false, _ => exact ⟨hem, hcell⟩
      | false, true, [] => exact ⟨hem, hcell⟩
      | false, true, (m, t) :: rest =>
          constructor
          · show s.emissions ++ [(update m s.modelCell).1]
              = scanModels update m₀ (s.processedMsgs ++ [m])
            rw [scanModels_concat, hem, hcell]
          · show (update m s.modelCell).1
              = (s.processedMsgs ++ [m]).foldl (fun mo m' => (update m' mo).1) m₀
            rw [List.foldl_append, hcell]
            rfl
  | fiberEmit i =>
      have hf := fiberEmitOp_frame i s
      show Inv5 update m₀ (fiberEmitOp i s)
      refine ⟨?_, ?_⟩
      · rw [hf.2.2.1, hf.2.1]
        exact hem
      · rw [hf.2.2.2, hf.2.1]
        exact hcell
  | fiberFail i =>
      have hf := fiberFailOp_frame i s
      show Inv5 update m₀ (fiberFailOp i s)
      refine ⟨?_, ?_⟩
      · rw [hf.2.2.1, hf.2.1]
        exact hem
      · rw [hf.2.2.2, hf.2.1]
        exact hcell
  | fiberDone i =>
      have hf := fiberDoneOp_frame i s
      show Inv5 update m₀ (fiberDoneOp i s)
      refine ⟨?_, ?_⟩
      · rw [hf.2.2.1, hf.2.1]
        exact hem
      · rw [hf.2.2.2, hf.2.1]
        exact hcell
  | shutdownEff => exact ⟨hem, hcell⟩

/-- C5 (amended): a subscriber attaching at construction observes the
initial model immediately and then *every* write, in write order — one
emission per update invocation, whether or not the written model differs
from the previous one; `model$` = `modelRef.changes` performs no
duplicate suppression (only the subscription loop pipes the cell through
`Stream.changes`). -/
theorem claim5_model_stream {Model Msg E : Type}
    (update : Msg → Model → Model × CmdDen Msg E) (m₀ : Model)
    (cmd₀ : CmdDen Msg E) (evs : List (PEvent Msg)) :
    subscriberView update (initState m₀ cmd₀) evs
        = m₀ :: scanModels update m₀ (reach update m₀ cmd₀ evs).processedMsgs ∧
      (reach update m₀ cmd₀ evs).modelCell
        = (reach update m₀ cmd₀ evs).processedMsgs.foldl (fun mo m => (update m mo).1) m₀ := by
  have hinit : Inv5 update m₀ (initState m₀ cmd₀) := ⟨rfl, rfl⟩
  have main : ∀ (evs : List (PEvent Msg)) (s : ProgState Model Msg E),
      Inv5 update m₀ s → Inv5 update m₀ (runEvents update evs s) := by
    intro evs
    induction evs with
    | nil => exact fun s h => h
    | cons e evs ih => exact fun s h => ih _ (Inv5_runEvent update m₀ e s h)
  have h := main evs (initState m₀ cmd₀) hinit
  refine ⟨?_, h.2⟩
  show (initState m₀ cmd₀).modelCell
      :: ((runEvents update evs (initState m₀ cmd₀)).emissions.drop
          (initState m₀ cmd₀).emissions.length)
    = m₀ :: scanModels update m₀ (reach update m₀ cmd₀ evs).processedMsgs
  rw [show (initState m₀ cmd₀).emissions.length = 0 from rfl, List.drop_zero]
  exact congrArg _ h.1

/-- A concrete update function whose result is the unchanged model (in the
source, `return [model, Cmd.none]` — the same reference written back). -/
def exC5upd : Unit → Nat → Nat × CmdDen Unit Unit := fun _ mo => (mo, noneDen)

/-- C5 counterexample: with an update that returns the model unchanged, one
dispatched message makes `SubscriptionRef.set` republish the same value, so
a `model$` subscriber observes `[0, 0]` — consecutive duplicate values *are*
re-emitted, contradicting the claim that only distinct writes are emitted
(which would give a duplicate-free view). -/
theorem claim5_counterexample :
    subscriberView exC5upd (initState 0 noneDen)
        [PEvent.dispatch (), PEvent.stepUpdate] = [0, 0] ∧
      ¬ List.Chain' (fun a b => a ≠ b) [(0 : Nat), 0] :=
  ⟨by decide, by simp [List.chain'_cons]⟩

/-! ## Claim theorems: command errors and the program's error channel (C2) -/

/-- A concrete program for the failing-command scenario: `update` never
changes the model; the initial command is `Cmd.fromEffect(Effect.fail("oops"))`,
a stream that emits no message and fails with `"oops"`. -/
def exC2upd : Unit → Nat → Nat × CmdDen Unit String := fun _ mo => (mo, noneDen)

/-- C2, behaviour of the code at the failing input: the initial command's
stream fails with `"oops"` inside its forked fiber (`processCmd` uses
`Effect.forkScoped`, src/Platform.ts lines 108-114), the failure becomes the
unobserved exit of that fiber, and `run`/`runWith` — which drain `model$`
= `modelRef.changes`, a stream that never fails — do *not* fail: the
program's error channel stays empty, against the declared
`Program<Model, Msg, E>` types and the spec. -/
theorem claim2_error_swallowed :
    (reach exC2upd 0 ⟨[], some "oops"⟩ [PEvent.fiberFail 0]).fiberFailures = ["oops"] ∧
      runWithErr (reach exC2upd 0 ⟨[], some "oops"⟩ [PEvent.fiberFail 0]) = Option.none ∧
      (Option.none : Option String) ≠ some "oops" :=
  ⟨rfl, rfl, by simp⟩

/-! ## Subscription loop (src/Platform.ts lines 137-145)

`subscriptionLoop` drains `modelRef.changes ▸ Stream.changes ▸
Stream.flatMap(model ⇒ subscriptions(model), switch: true) ▸ tap(offer)`.
The deduplicated model-change sequence is the `pending` input; the
`switch: true` combinator interrupts the in-flight inner stream — running
its finalizers — before starting the inner stream of the next model.  A
scheduler decision list drives the loop: `next` handles the next model
change (cancel-then-activate), `emit` lets the active subscription emit its
next message into the queue (or observe its completion).  Each activation
gets a fresh id so that activations of equal models stay distinguished. -/

namespace Subs

/-- State of the subscription loop: pending (deduplicated) model changes,
the in-flight activation (id, source model, remaining messages), and the
next fresh activation id. -/
structure SubState (Model Msg : Type) where
  pending : List Model
  active : Option (Nat × Model × List Msg)
  nextId : Nat

/-- Observable events of the subscription loop. -/
inductive SubEvent (Model Msg : Type)
  | activate (id : Nat) (m : Model)
  | cancel (id : Nat) (m : Model)
  | emit (id : Nat) (m : Model) (msg : Msg)
  | complete (id : Nat) (m : Model)

/-- Scheduler decision: handle the next model change, or advance the active
inner stream. -/
inductive SubDec : Type
  | next
  | emit

/-- One step of the switching loop.  On a model change with an in-flight
activation, cancel it and only then activate the next (the events appear in
that order); on a model change with none in flight, activate directly; an
`emit` step lets the active subscription deliver its next message, or ends
it when its stream is exhausted. -/
def subStep {Model Msg : Type} (subs : Model → List Msg) (s : SubState Model Msg) :
    SubDec → List (SubEvent Model Msg) × SubState Model Msg
  | .next =>
      match s.pending, s.active with
      | [], _ => ([], s)
      | m' :: p, some (id, m, _) =>
          ([SubEvent.cancel id m, SubEvent.activate s.nextId m'],
            ⟨p, some (s.nextId, m', subs m'), s.nextId + 1⟩)
      | m' :: p, Option.none =>
          ([SubEvent.activate s.nextId m'],
            ⟨p, some (s.nextId, m', subs m'), s.nextId + 1⟩)
  | .emit =>
      match s.active with
      | some (id, m, msg :: rest) =>
          ([SubEvent.emit id m msg], ⟨s.pending, some (id, m, rest), s.nextId⟩)
      | some (id, m, []) => ([SubEvent.complete id m], ⟨s.pending, Option.none, s.nextId⟩)
      | Option.none => ([], s)

/-- The event trace and final state of the loop under a decision schedule. -/
def subRun {Model Msg : Type} (subs : Model → List Msg) :
    List SubDec → SubState Model Msg → List (SubEvent Model Msg) × SubState Model Msg
  | [], s => ([], s)
  | d :: ds, s =>
      let r := subStep subs s d
      let r' := subRun subs ds r.2
      (r.1 ++ r'.1, r'.2)

/-- The activation id an event belongs to. -/
def SubEvent.idOf {Model Msg : Type} : SubEvent Model Msg → Nat
  | .activate id _ => id
  | .cancel id _ => id
  | .emit id _ _ => id
  | .complete id _ => id

/-- Event classifiers. -/
def SubEvent.isActivate {Model Msg : Type} : SubEvent Model Msg → Bool
  | .activate _ _ => true
  | _ => false

/-- An event that ends an activation: a cancellation or a completion. -/
def SubEvent.isClose {Model Msg : Type} : SubEvent Model Msg → Bool
  | .cancel _ _ => true
  | .complete _ _ => true
  | _ => false

/-- Switching order: at every activation point of the trace, every earlier
activation has already been cancelled (or had completed on its own). -/
def CancelBeforeNext {Model Msg : Type} (tr : List (SubEvent Model Msg)) : Prop :=
  ∀ t1 id' m' t2, tr = t1 ++ SubEvent.activate id' m' :: t2 →
    ∀ id m, SubEvent.activate id m ∈ t1 →
      (∃ mm, SubEvent.cancel id mm ∈ t1) ∨ (∃ mm, SubEvent.complete id mm ∈ t1)

/-- After a cancellation, the cancelled activation emits no further message
into the queue. -/
def NoEmitAfterCancel {Model Msg : Type} (tr : List (SubEvent Model Msg)) : Prop :=
  ∀ t1 id m t2, tr = t1 ++ SubEvent.cancel id m :: t2 →
    ∀ m' msg, SubEvent.emit id m' msg ∉ t2

/-- At every point of the trace, the number of activations exceeds the
number of closes by at most one: at most one subscription is in flight. -/
def AtMostOneActive {Model Msg : Type} (tr : List (SubEvent Model Msg)) : Prop :=
  ∀ t1 t2, tr = t1 ++ t2 →
    t1.countP (fun e => SubEvent.isClose e) ≤ t1.countP (fun e => SubEvent.isActivate e) ∧
      t1.countP (fun e => SubEvent.isActivate e)
        ≤ t1.countP (fun e => SubEvent.isClose e) + 1

/-- Splitting `tr ++ [x]` at an occurrence of `e`: the occurrence is inside
`tr`, or it is the appended `x`. -/
theorem append_one_split {α : Type u} {tr t1 t2 : List α} {e x : α}
    (h : tr ++ [x] = t1 ++ e :: t2) :
    (∃ t2', tr = t1 ++ e :: t2' ∧ t2 = t2' ++ [x]) ∨ (t1 = tr ∧ e = x ∧ t2 = []) := by
  rcases List.append_eq_append_iff.mp h with ⟨w, hw1, hw2⟩ | ⟨w, hw1, hw2⟩
  · cases w with
    | nil =>
        simp only [List.nil_append] at hw2
        obtain ⟨he, ht⟩ := List.cons.inj hw2.symm
        simp only [List.append_nil] at hw1
        exact Or.inr ⟨hw1, he, ht⟩
    | cons a as =>
        simp only [List.cons_append] at hw2
        obtain ⟨ha, ht⟩ := List.cons.inj hw2
        exact absurd ht.symm (by simp)
  · cases w with
    | nil =>
        simp only [List.nil_append] at hw2
        obtain ⟨he, ht⟩ := List.cons.inj hw2
        simp only [List.append_nil] at hw1
        exact Or.inr ⟨hw1.symm, he, ht⟩
    | cons a as =>
        simp only [List.cons_append] at hw2
        obtain ⟨he, ht⟩ := List.cons.inj hw2
        refine Or.inl ⟨as, ?_, ht⟩
        rw [hw1, ← he]

/-- Splitting `tr ++ [x, y]` at an occurrence of `e`. -/
theorem append_two_split {α : Type u} {tr t1 t2 : List α} {e x y : α}
    (h : tr ++ [x, y] = t1 ++ e :: t2) :
    (∃ t2', tr = t1 ++ e :: t2' ∧ t2 = t2' ++ [x, y]) ∨
      (t1 = tr ∧ e = x ∧ t2 = [y]) ∨ (t1 = tr ++ [x] ∧ e = y ∧ t2 = []) := by
  have h' : (tr ++ [x]) ++ [y] = t1 ++ e :: t2 := by
    rw [List.append_assoc]
    exact h
  rcases append_one_split h' with ⟨t2', h1, h2⟩ | ⟨h1, h2, h3⟩
  · rcases append_one_split h1 with ⟨t2'', g1, g2⟩ | ⟨g1, g2, g3⟩
    · refine Or.inl ⟨t2'', g1, ?_⟩
      rw [h2, g2]
      simp
    · exact Or.inr (Or.inl ⟨g1, g2, by rw [h2, g3]; rfl⟩)
  · exact Or.inr (Or.inr ⟨h1, h2, h3⟩)

/-- Splitting `tr ++ B` as `t1 ++ t2`: either `t1` is an initial segment of
`tr`, or `t1` extends `tr` into `B`. -/
theorem append_two_way {α : Type u} {tr B t1 t2 : List α} (h : tr ++ B = t1 ++ t2) :
    (∃ u, tr = t1 ++ u) ∨ (∃ v w, t1 = tr ++ v ∧ B = v ++ w) := by
  rcases List.append_eq_append_iff.mp h with ⟨w, hw1, hw2⟩ | ⟨w, hw1, hw2⟩
  · exact Or.inr ⟨w, t2, hw1, hw2⟩
  · exact Or.inl ⟨w, hw1⟩

/-- An event whose id equals the bound is not in a trace whose ids are all
below the bound. -/
theorem not_mem_of_idsLt {Model Msg : Type} {tr : List (SubEvent Model Msg)} {n : Nat}
    (h : ∀ e ∈ tr, SubEvent.idOf e < n) {e : SubEvent Model Msg}
    (he : SubEvent.idOf e = n) : e ∉ tr :=
  fun hm => absurd (h e hm) (by rw [he]; exact Nat.lt_irrefl n)

/-- The inductive invariant of the switching loop, tying the trace so far to
the loop state: the in-flight activation is never yet closed in the trace;
every past activation is the in-flight one or closed; all trace ids are
below the fresh-id counter; and the three claim properties hold of the
trace, with the activation/close balance matching the in-flight flag. -/
structure SubInv {Model Msg : Type} (tr : List (SubEvent Model Msg))
    (s : SubState Model Msg) : Prop where
  activeFresh : ∀ id m rest, s.active = some (id, m, rest) →
      id < s.nextId ∧ (∀ mm, SubEvent.cancel id mm ∉ tr) ∧
        (∀ mm, SubEvent.complete id mm ∉ tr)
  pastClosed : ∀ id m, SubEvent.activate id m ∈ tr →
      (∃ rest, s.active = some (id, m, rest)) ∨
        (∃ mm, SubEvent.cancel id mm ∈ tr) ∨ (∃ mm, SubEvent.complete id mm ∈ tr)
  idsLt : ∀ e ∈ tr, SubEvent.idOf e < s.nextId
  p1 : CancelBeforeNext tr
  p2 : NoEmitAfterCancel tr
  p3 : AtMostOneActive tr
  balance : tr.countP (fun e => SubEvent.isActivate e)
      = tr.countP (fun e => SubEvent.isClose e) + (if s.active.isSome then 1 else 0)

theorem SubInv.step {Model Msg : Type} (subs : Model → List Msg)
    (tr : List (SubEvent Model Msg)) (s : SubState Model Msg) (d : SubDec)
    (h : SubInv tr s) :
    SubInv (tr ++ (subStep subs s d).1) (subStep subs s d).2 := by
  obtain ⟨hfresh, hclosed, hids, hp1, hp2, hp3, hbal⟩ := h
  cases d with
  | next =>
      show SubInv (tr ++ (subStep subs s SubDec.next).1) (subStep subs s SubDec.next).2
      unfold subStep
      match hpend : s.pending, ha : s.active with
      | [], _ =>
          rw [List.append_nil]
          exact ⟨hfresh, hclosed, hids, hp1, hp2, hp3, hbal⟩
      | m' :: p, some (id, m, rest) =>
          have hf := hfresh id m rest ha
          have hbal' : tr.countP (fun e => SubEvent.isActivate e)
              = tr.countP (fun e => SubEvent.isClose e) + 1 := by
            rw [hbal, ha]
            rfl
          refine ⟨?_, ?_, ?_, ?_, ?_, ?_, ?_⟩
          · -- activeFresh
            intro id₀ m₀ rest₀ hact
            simp only [Option.some.injEq, Prod.mk.injEq] at hact
            obtain ⟨rfl, rfl, rfl⟩ := hact
            refine ⟨Nat.lt_succ_self _, ?_, ?_⟩
            · intro mm hmem
              rcases List.mem_append.mp hmem with hin | hin
              · exact absurd (hids _ hin) (by simp [SubEvent.idOf])
              · simp only [List.mem_cons, List.not_mem_nil, or_false] at hin
                rcases hin with heq | heq
                · cases heq
                  exact absurd hf.1 (Nat.lt_irrefl _)
                · cases heq
            · intro mm hmem
              rcases List.mem_append.mp hmem with hin | hin
              · exact absurd (hids _ hin) (by simp [SubEvent.idOf])
              · simp only [List.mem_cons, List.not_mem_nil, or_false] at hin
                rcases hin with heq | heq
                · cases heq
                · cases heq
          · -- pastClosed
            intro id₀ m₀ hmem
            rcases List.mem_append.mp hmem with hin | hin
            · rcases hclosed id₀ m₀ hin with ⟨rest', hact⟩ | ⟨mm, hc⟩ | ⟨mm, hk⟩
              · rw [ha] at hact
                simp only [Option.some.injEq, Prod.mk.injEq] at hact
                obtain ⟨rfl, rfl, rfl⟩ := hact
                exact Or.inr (Or.inl ⟨m, List.mem_append_right _ (List.mem_cons_self _ _)⟩)
              · exact Or.inr (Or.inl ⟨mm, List.mem_append_left _ hc⟩)
              · exact Or.inr (Or.inr ⟨mm, List.mem_append_left _ hk⟩)
            · simp only [List.mem_cons, List.not_mem_nil, or_false] at hin
              rcases hin with heq | heq
              · cases heq
              · cases heq
                exact Or.inl ⟨subs m', rfl⟩
          · -- idsLt
            intro e he
            rcases List.mem_append.mp he with hin | hin
            · exact Nat.lt_succ_of_lt (hids e hin)
            · simp only [List.mem_cons, List.not_mem_nil, or_false] at hin
              rcases hin with heq | heq
              · cases heq
                exact Nat.lt_succ_of_lt hf.1
              · cases heq
                exact Nat.lt_succ_self _
          · -- p1
            intro t1 id' m'' t2 hsplit id₀ m₀ hmemt1
            rcases append_two_split hsplit with ⟨t2', g1, _⟩ | ⟨_, heq, _⟩ | ⟨g1, _, _⟩
            · exact hp1 t1 id' m'' t2' g1 id₀ m₀ hmemt1
            · cases heq
            · subst g1
              rcases List.mem_append.mp hmemt1 with hin | hin
              · rcases hclosed id₀ m₀ hin with ⟨rest', hact⟩ | ⟨mm, hc⟩ | ⟨mm, hk⟩
                · rw [ha] at hact
                  simp only [Option.some.injEq, Prod.mk.injEq] at hact
                  obtain ⟨rfl, rfl, rfl⟩ := hact
                  exact Or.inl ⟨m, List.mem_append_right _ (List.mem_cons_self _ _)⟩
                · exact Or.inl ⟨mm, List.mem_append_left _ hc⟩
                · exact Or.inr ⟨mm, List.mem_append_left _ hk⟩
              · simp only [List.mem_cons, List.not_mem_nil, or_false] at hin
                cases hin
          · -- p2
            intro t1 id₀ m₀ t2 hsplit m₁ msg hmem
            rcases append_two_split hsplit with ⟨t2', g1, g2⟩ | ⟨_, heq, g2⟩ | ⟨_, heq, _⟩
            · subst g2
              rcases List.mem_append.mp hmem with hin | hin
              · exact hp2 t1 id₀ m₀ t2' g1 m₁ msg hin
              · simp only [List.mem_cons, List.not_mem_nil, or_false] at hin
                rcases hin with heq | heq
                · cases heq
                · cases heq
            · subst g2
              simp only [List.mem_cons, List.not_mem_nil, or_false] at hmem
              cases hmem
            · cases heq
          · -- p3
            intro t1 t2 hsplit
            rcases append_two_way hsplit with ⟨u, hu⟩ | ⟨v, w, hv, hB⟩
            · exact hp3 t1 u hu
            · subst hv
              rcases v with _ | ⟨x, v'⟩
              · rw [List.append_nil]
                omega
              · obtain ⟨rfl, hB'⟩ := List.cons.inj hB
                rcases v' with _ | ⟨y, v''⟩
                · rw [List.countP_append, List.countP_append]
                  have h1 : List.countP (fun e => SubEvent.isClose e)
                      ([SubEvent.cancel id m] : List (SubEvent Model Msg)) = 1 := by simp [List.countP_cons, SubEvent.isClose, SubEvent.isActivate]
                  have h2 : List.countP (fun e => SubEvent.isActivate e)
                      ([SubEvent.cancel id m] : List (SubEvent Model Msg)) = 0 := by simp [List.countP_cons, SubEvent.isClose, SubEvent.isActivate]
                  rw [h1, h2]
                  omega
                · obtain ⟨rfl, hB''⟩ := List.cons.inj hB'
                  have hv'' : v'' = [] := by
                    cases v'' with
                    | nil => rfl
                    | cons z v3 => exact absurd (congrArg List.length hB'') (by simp)
                  subst hv''
                  rw [List.countP_append, List.countP_append]
                  have h1 : List.countP (fun e => SubEvent.isClose e)
                      ([SubEvent.cancel id m, SubEvent.activate s.nextId m'] : List (SubEvent Model Msg)) = 1 := by simp [List.countP_cons, SubEvent.isClose, SubEvent.isActivate]
                  have h2 : List.countP (fun e => SubEvent.isActivate e)
                      ([SubEvent.cancel id m, SubEvent.activate s.nextId m'] : List (SubEvent Model Msg)) = 1 := by simp [List.countP_cons, SubEvent.isClose, SubEvent.isActivate]
                  rw [h1, h2]
                  omega
          · -- balance
            rw [List.countP_append, List.countP_append]
            have h1 : List.countP (fun e => SubEvent.isClose e)
                ([SubEvent.cancel id m, SubEvent.activate s.nextId m'] : List (SubEvent Model Msg)) = 1 := by simp [List.countP_cons, SubEvent.isClose, SubEvent.isActivate]
            have h2 : List.countP (fun e => SubEvent.isActivate e)
                ([SubEvent.cancel id m, SubEvent.activate s.nextId m'] : List (SubEvent Model Msg)) = 1 := by simp [List.countP_cons, SubEvent.isClose, SubEvent.isActivate]
            have h3 : (if (some (s.nextId, m', subs m')
                : Option (Nat × Model × List Msg)).isSome then 1 else 0) = 1 := rfl
            rw [h1, h2, h3]
            omega
      | m' :: p, Option.none =>
          have hbal' : tr.countP (fun e => SubEvent.isActivate e)
              = tr.countP (fun e => SubEvent.isClose e) := by
            rw [hbal, ha]
            rfl
          refine ⟨?_, ?_, ?_, ?_, ?_, ?_, ?_⟩
          · intro id₀ m₀ rest₀ hact
            simp only [Option.some.injEq, Prod.mk.injEq] at hact
            obtain ⟨rfl, rfl, rfl⟩ := hact
            refine ⟨Nat.lt_succ_self _, ?_, ?_⟩
            · intro mm hmem
              rcases List.mem_append.mp hmem with hin | hin
              · exact absurd (hids _ hin) (by simp [SubEvent.idOf])
              · simp only [List.mem_cons, List.not_mem_nil, or_false] at hin
                cases hin
            · intro mm hmem
              rcases List.mem_append.mp hmem with hin | hin
              · exact absurd (hids _ hin) (by simp [SubEvent.idOf])
              · simp only [List.mem_cons, List.not_mem_nil, or_false] at hin
                cases hin
          · intro id₀ m₀ hmem
            rcases List.mem_append.mp hmem with hin | hin
            · rcases hclosed id₀ m₀ hin with ⟨rest', hact⟩ | ⟨mm, hc⟩ | ⟨mm, hk⟩
              · rw [ha] at hact
                cases hact
              · exact Or.inr (Or.inl ⟨mm, List.mem_append_left _ hc⟩)
              · exact Or.inr (Or.inr ⟨mm, List.mem_append_left _ hk⟩)
            · simp only [List.mem_cons, List.not_mem_nil, or_false] at hin
              cases hin
              exact Or.inl ⟨subs m', rfl⟩
          · intro e he
            rcases List.mem_append.mp he with hin | hin
            · exact Nat.lt_succ_of_lt (hids e hin)
            · simp only [List.mem_cons, List.not_mem_nil, or_false] at hin
              cases hin
              exact Nat.lt_succ_self _
          · intro t1 id' m'' t2 hsplit id₀ m₀ hmemt1
            rcases append_one_split hsplit with ⟨t2', g1, _⟩ | ⟨g1, heq, _⟩
            · exact hp1 t1 id' m'' t2' g1 id₀ m₀ hmemt1
            · subst g1
              rcases hclosed id₀ m₀ hmemt1 with ⟨rest', hact⟩ | ⟨mm, hc⟩ | ⟨mm, hk⟩
              · rw [ha] at hact
                cases hact
              · exact Or.inl ⟨mm, hc⟩
              · exact Or.inr ⟨mm, hk⟩
          · intro t1 id₀ m₀ t2 hsplit m₁ msg hmem
            rcases append_one_split hsplit with ⟨t2', g1, g2⟩ | ⟨_, heq, _⟩
            · subst g2
              rcases List.mem_append.mp hmem with hin | hin
              · exact hp2 t1 id₀ m₀ t2' g1 m₁ msg hin
              · simp only [List.mem_cons, List.not_mem_nil, or_false] at hin
                cases hin
            · cases heq
          · intro t1 t2 hsplit
            rcases append_two_way hsplit with ⟨u, hu⟩ | ⟨v, w, hv, hB⟩
            · exact hp3 t1 u hu
            · subst hv
              rcases v with _ | ⟨x, v'⟩
              · rw [List.append_nil]
                omega
              · obtain ⟨rfl, hB'⟩ := List.cons.inj hB
                have hv' : v' = [] := by
                  cases v' with
                  | nil => rfl
                  | cons z v3 => exact absurd (congrArg List.length hB') (by simp)
                subst hv'
                rw [List.countP_append, List.countP_append]
                have h1 : List.countP (fun e => SubEvent.isClose e)
                    ([SubEvent.activate s.nextId m'] : List (SubEvent Model Msg)) = 0 := by simp [List.countP_cons, SubEvent.isClose, SubEvent.isActivate]
                have h2 : List.countP (fun e => SubEvent.isActivate e)
                    ([SubEvent.activate s.nextId m'] : List (SubEvent Model Msg)) = 1 := by simp [List.countP_cons, SubEvent.isClose, SubEvent.isActivate]
                rw [h1, h2]
                omega
          · rw [List.countP_append, List.countP_append]
            have h1 : List.countP (fun e => SubEvent.isClose e)
                ([SubEvent.activate s.nextId m'] : List (SubEvent Model Msg)) = 0 := by simp [List.countP_cons, SubEvent.isClose, SubEvent.isActivate]
            have h2 : List.countP (fun e => SubEvent.isActivate e)
                ([SubEvent.activate s.nextId m'] : List (SubEvent Model Msg)) = 1 := by simp [List.countP_cons, SubEvent.isClose, SubEvent.isActivate]
            have h3 : (if (some (s.nextId, m', subs m')
                : Option (Nat × Model × List Msg)).isSome then 1 else 0) = 1 := rfl
            rw [h1, h2, h3]
            omega
  | emit =>
      show SubInv (tr ++ (subStep subs s SubDec.emit).1) (subStep subs s SubDec.emit).2
      unfold subStep
      match ha : s.active with
      | some (id, m, msg :: rest) =>
          have hf := hfresh id m (msg :: rest) ha
          have hbal' : tr.countP (fun e => SubEvent.isActivate e)
              = tr.countP (fun e => SubEvent.isClose e) + 1 := by
            rw [hbal, ha]
            rfl
          refine ⟨?_, ?_, ?_, ?_, ?_, ?_, ?_⟩
          · intro id₀ m₀ rest₀ hact
            simp only [Option.some.injEq, Prod.mk.injEq] at hact
            obtain ⟨rfl, rfl, rfl⟩ := hact
            refine ⟨hf.1, ?_, ?_⟩
            · intro mm hmem
              rcases List.mem_append.mp hmem with hin | hin
              · exact hf.2.1 mm hin
              · simp only [List.mem_cons, List.not_mem_nil, or_false] at hin
                cases hin
            · intro mm hmem
              rcases List.mem_append.mp hmem with hin | hin
              · exact hf.2.2 mm hin
              · simp only [List.mem_cons, List.not_mem_nil, or_false] at hin
                cases hin
          · intro id₀ m₀ hmem
            rcases List.mem_append.mp hmem with hin | hin
            · rcases hclosed id₀ m₀ hin with ⟨rest', hact⟩ | ⟨mm, hc⟩ | ⟨mm, hk⟩
              · rw [ha] at hact
                simp only [Option.some.injEq, Prod.mk.injEq] at hact
                obtain ⟨rfl, rfl, rfl⟩ := hact
                exact Or.inl ⟨rest, rfl⟩
              · exact Or.inr (Or.inl ⟨mm, List.mem_append_left _ hc⟩)
              · exact Or.inr (Or.inr ⟨mm, List.mem_append_left _ hk⟩)
            · simp only [List.mem_cons, List.not_mem_nil, or_false] at hin
              cases hin
          · intro e he
            rcases List.mem_append.mp he with hin | hin
            · exact hids e hin
            · simp only [List.mem_cons, List.not_mem_nil, or_false] at hin
              cases hin
              exact hf.1
          · intro t1 id' m'' t2 hsplit id₀ m₀ hmemt1
            rcases append_one_split hsplit with ⟨t2', g1, _⟩ | ⟨_, heq, _⟩
            · exact hp1 t1 id' m'' t2' g1 id₀ m₀ hmemt1
            · cases heq
          · intro t1 id₀ m₀ t2 hsplit m₁ msg₁ hmem
            rcases append_one_split hsplit with ⟨t2', g1, g2⟩ | ⟨_, heq, _⟩
            · subst g2
              rcases List.mem_append.mp hmem with hin | hin
              · exact hp2 t1 id₀ m₀ t2' g1 m₁ msg₁ hin
              · simp only [List.mem_cons, List.not_mem_nil, or_false] at hin
                cases hin
                exact hf.2.1 m₀ (g1 ▸ List.mem_append_right _ (List.mem_cons_self _ _))
            · cases heq
          · intro t1 t2 hsplit
            rcases append_two_way hsplit with ⟨u, hu⟩ | ⟨v, w, hv, hB⟩
            · exact hp3 t1 u hu
            · subst hv
              rcases v with _ | ⟨x, v'⟩
              · rw [List.append_nil]
                omega
              · obtain ⟨rfl, hB'⟩ := List.cons.inj hB
                have hv' : v' = [] := by
                  cases v' with
                  | nil => rfl
                  | cons z v3 => exact absurd (congrArg List.length hB') (by simp)
                subst hv'
                rw [List.countP_append, List.countP_append]
                have h1 : List.countP (fun e => SubEvent.isClose e)
                    ([SubEvent.emit id m msg] : List (SubEvent Model Msg)) = 0 := by simp [List.countP_cons, SubEvent.isClose, SubEvent.isActivate]
                have h2 : List.countP (fun e => SubEvent.isActivate e)
                    ([SubEvent.emit id m msg] : List (SubEvent Model Msg)) = 0 := by simp [List.countP_cons, SubEvent.isClose, SubEvent.isActivate]
                rw [h1, h2]
                omega
          · rw [List.countP_append, List.countP_append]
            have h1 : List.countP (fun e => SubEvent.isClose e)
                ([SubEvent.emit id m msg] : List (SubEvent Model Msg)) = 0 := by simp [List.countP_cons, SubEvent.isClose, SubEvent.isActivate]
            have h2 : List.countP (fun e => SubEvent.isActivate e)
                ([SubEvent.emit id m msg] : List (SubEvent Model Msg)) = 0 := by simp [List.countP_cons, SubEvent.isClose, SubEvent.isActivate]
            have h3 : (if (some (id, m, rest)
                : Option (Nat × Model × List Msg)).isSome then 1 else 0) = 1 := rfl
            rw [h1, h2, h3]
            omega
      | some (id, m, []) =>
          have hf := hfresh id m [] ha
          have hbal' : tr.countP (fun e => SubEvent.isActivate e)
              = tr.countP (fun e => SubEvent.isClose e) + 1 := by
            rw [hbal, ha]
            rfl
          refine ⟨?_, ?_, ?_, ?_, ?_, ?_, ?_⟩
          · intro id₀ m₀ rest₀ hact
            cases hact
          · intro id₀ m₀ hmem
            rcases List.mem_append.mp hmem with hin | hin
            · rcases hclosed id₀ m₀ hin with ⟨rest', hact⟩ | ⟨mm, hc⟩ | ⟨mm, hk⟩
              · rw [ha] at hact
                simp only [Option.some.injEq, Prod.mk.injEq] at hact
                obtain ⟨rfl, rfl, rfl⟩ := hact
                exact Or.inr (Or.inr ⟨m, List.mem_append_right _ (List.mem_cons_self _ _)⟩)
              · exact Or.inr (Or.inl ⟨mm, List.mem_append_left _ hc⟩)
              · exact Or.inr (Or.inr ⟨mm, List.mem_append_left _ hk⟩)
            · simp only [List.mem_cons, List.not_mem_nil, or_false] at hin
              cases hin
          · intro e he
            rcases List.mem_append.mp he with hin | hin
            · exact hids e hin
            · simp only [List.mem_cons, List.not_mem_nil, or_false] at hin
              cases hin
              exact hf.1
          · intro t1 id' m'' t2 hsplit id₀ m₀ hmemt1
            rcases append_one_split hsplit with ⟨t2', g1, _⟩ | ⟨_, heq, _⟩
            · exact hp1 t1 id' m'' t2' g1 id₀ m₀ hmemt1
            · cases heq
          · intro t1 id₀ m₀ t2 hsplit m₁ msg₁ hmem
            rcases append_one_split hsplit with ⟨t2', g1, g2⟩ | ⟨_, heq, _⟩
            · subst g2
              rcases List.mem_append.mp hmem with hin | hin
              · exact hp2 t1 id₀ m₀ t2' g1 m₁ msg₁ hin
              · simp only [List.mem_cons, List.not_mem_nil, or_false] at hin
                cases hin
            · cases heq
          · intro t1 t2 hsplit
            rcases append_two_way hsplit with ⟨u, hu⟩ | ⟨v, w, hv, hB⟩
            · exact hp3 t1 u hu
            · subst hv
              rcases v with _ | ⟨x, v'⟩
              · rw [List.append_nil]
                omega
              · obtain ⟨rfl, hB'⟩ := List.cons.inj hB
                have hv' : v' = [] := by
                  cases v' with
                  | nil => rfl
                  | cons z v3 => exact absurd (congrArg List.length hB') (by simp)
                subst hv'
                rw [List.countP_append, List.countP_append]
                have h1 : List.countP (fun e => SubEvent.isClose e)
                    ([SubEvent.complete id m] : List (SubEvent Model Msg)) = 1 := by simp [List.countP_cons, SubEvent.isClose, SubEvent.isActivate]
                have h2 : List.countP (fun e => SubEvent.isActivate e)
                    ([SubEvent.complete id m] : List (SubEvent Model Msg)) = 0 := by simp [List.countP_cons, SubEvent.isClose, SubEvent.isActivate]
                rw [h1, h2]
                omega
          · rw [List.countP_append, List.countP_append]
            have h1 : List.countP (fun e => SubEvent.isClose e)
                ([SubEvent.complete id m] : List (SubEvent Model Msg)) = 1 := by simp [List.countP_cons, SubEvent.isClose, SubEvent.isActivate]
            have h2 : List.countP (fun e => SubEvent.isActivate e)
                ([SubEvent.complete id m] : List (SubEvent Model Msg)) = 0 := by simp [List.countP_cons, SubEvent.isClose, SubEvent.isActivate]
            have h3 : (if (Option.none
                : Option (Nat × Model × List Msg)).isSome then 1 else 0) = 0 := rfl
            rw [h1, h2, h3]
            omega
      | Option.none =>
          rw [List.append_nil]
          exact ⟨hfresh, hclosed, hids, hp1, hp2, hp3, hbal⟩

theorem subRun_inv {Model Msg : Type} (subs : Model → List Msg) (ds : List SubDec)
    (tr : List (SubEvent Model Msg)) (s : SubState Model Msg) (h : SubInv tr s) :
    SubInv (tr ++ (subRun subs ds s).1) (subRun subs ds s).2 := by
  induction ds generalizing tr s with
  | nil =>
      rw [show (subRun subs ([] : List SubDec) s).1 = [] from rfl, List.append_nil]
      exact h
  | cons d ds ih =>
      have h1 := SubInv.step subs tr s d h
      have h2 := ih _ _ h1
      rw [show (subRun subs (d :: ds) s).1
            = (subStep subs s d).1 ++ (subRun subs ds (subStep subs s d).2).1 from rfl,
          show (subRun subs (d :: ds) s).2 = (subRun subs ds (subStep subs s d).2).2 from rfl,
          ← List.append_assoc]
      exact h2

theorem SubInv.start {Model Msg : Type} (models : List Model) :
    SubInv ([] : List (SubEvent Model Msg)) ⟨models, Option.none, 0⟩ := by
  refine ⟨?_, ?_, ?_, ?_, ?_, ?_, rfl⟩
  · intro id m rest hact
    cases hact
  · intro id m hmem
    cases hmem
  · intro e he
    cases he
  · intro t1 id' m' t2 hsplit
    exact absurd (List.append_eq_nil.mp hsplit.symm).2 (List.cons_ne_nil _ _)
  · intro t1 id m t2 hsplit
    exact absurd (List.append_eq_nil.mp hsplit.symm).2 (List.cons_ne_nil _ _)
  · intro t1 t2 hsplit
    have h1 : t1 = [] := (List.append_eq_nil.mp hsplit.symm).1
    subst h1
    simp [List.countP_nil]

end Subs

open Subs

/-- C4: under every scheduler interleaving of the switching subscription
loop (src/Platform.ts lines 137-145, `Stream.flatMap` with `switch: true`
over the deduplicated model-change stream), the event trace satisfies: the
in-flight subscription derived from a model is cancelled (or had already
completed) before the subscription of the next model is activated; after a
cancellation the cancelled activation emits no further message into the
queue; and at every trace point at most one subscription is active
(activations exceed cancellations-plus-completions by at most one). -/
theorem claim4_subscription_switching {Model Msg : Type}
    (subs : Model → List Msg) (models : List Model) (ds : List SubDec) :
    CancelBeforeNext (subRun subs ds (⟨models, Option.none, 0⟩ : SubState Model Msg)).1 ∧
      NoEmitAfterCancel (subRun subs ds (⟨models, Option.none, 0⟩ : SubState Model Msg)).1 ∧
      AtMostOneActive (subRun subs ds (⟨models, Option.none, 0⟩ : SubState Model Msg)).1 := by
  have h := subRun_inv subs ds [] ⟨models, Option.none, 0⟩ (SubInv.start models)
  rw [List.nil_append] at h
  exact ⟨h.p1, h.p2, h.p3⟩

end TeaEffect
